import Mathlib

/-!
Verification of the answer-evaluation service.

Texts are modelled as `List Char` (Python strings), numbers as `ℚ`
(exact arithmetic in place of IEEE doubles; none of the verified
properties depends on float rounding), machine integers as `ℤ`.
Functions that can raise a Python exception return `Option`.

The sections below embed, in order:
* `text_preprocessor.py`  (`TextPreprocessor.preprocess`)
* `context_analyzer.py`   (`ContextAnalyzer.analyze`, `calculate_concept_coverage`)
* `ensemble_evaluator.py` (`EnsembleEvaluator.ensemble_evaluate`)
* `scoring_algorithm.py`  (`ScoringAlgorithm.calculate_final_score`, `_calculate_confidence`)
* `sbert_service.py`      (`enhanced_evaluate` and the `/evaluate` dispatch)
-/

/-- Characters Python treats as whitespace for `\s`, `str.split()` and
`str.strip()` (ASCII range: space, tab, newline, carriage return,
vertical tab, form feed). -/
def pyIsSpace (c : Char) : Bool :=
  c.toNat = 32 || c.toNat = 9 || c.toNat = 10 || c.toNat = 13 || c.toNat = 11 || c.toNat = 12

/-- Lower-casing of one character, as `str.lower()` does on ASCII:
an upper-case letter moves down by 32 code points. -/
def pyLowerChar (c : Char) : Char :=
  if 65 ≤ c.toNat ∧ c.toNat ≤ 90 then Char.ofNat (c.toNat + 32) else c

/-- Python `text.lower()`. -/
def pyLower (t : List Char) : List Char := t.map pyLowerChar

/-- Python regex `\w` on ASCII: letters, digits, underscore. -/
def pyIsWordChar (c : Char) : Bool :=
  (97 ≤ c.toNat && c.toNat ≤ 122) || (65 ≤ c.toNat && c.toNat ≤ 90) ||
    (48 ≤ c.toNat && c.toNat ≤ 57) || c.toNat = 95

/-- Characters kept by `re.sub(r'[^\w\s.,]', '', text)` in
`TextPreprocessor.preprocess`. -/
def keptChar (c : Char) : Bool :=
  pyIsWordChar c || pyIsSpace c || c = '.' || c = ','

/-- Worker for `collapseWs`; the flag records whether the previous
character belonged to a whitespace run already emitted as one space. -/
def collapseWsAux : List Char → Bool → List Char
  | [], _ => []
  | c :: rest, prevSpace =>
    if pyIsSpace c then
      if prevSpace then collapseWsAux rest true
      else ' ' :: collapseWsAux rest true
    else c :: collapseWsAux rest false

/-- Python `re.sub(r'\s+', ' ', text)`: every maximal whitespace run
becomes a single space. -/
def collapseWs (t : List Char) : List Char := collapseWsAux t false

/-- Python `text.strip()`: drop leading and trailing whitespace. -/
def stripL (t : List Char) : List Char :=
  ((t.dropWhile pyIsSpace).reverse.dropWhile pyIsSpace).reverse

/-- Worker for `pySplit`; `acc` holds the current word reversed. -/
def pySplitAux : List Char → List Char → List (List Char)
  | [], acc => if acc = [] then [] else [acc.reverse]
  | c :: rest, acc =>
    if pyIsSpace c then
      if acc = [] then pySplitAux rest [] else acc.reverse :: pySplitAux rest []
    else pySplitAux rest (c :: acc)

/-- Python `text.split()` with no argument: split on whitespace runs,
discarding empty pieces. -/
def pySplit (t : List Char) : List (List Char) := pySplitAux t []

/-- Worker for `splitOnDot`. -/
def splitOnDotAux : List Char → List Char → List (List Char)
  | [], acc => [acc.reverse]
  | c :: rest, acc =>
    if c = '.' then acc.reverse :: splitOnDotAux rest []
    else splitOnDotAux rest (c :: acc)

/-- Python `text.split('.')`: split on every period, keeping empty
pieces. -/
def splitOnDot (t : List Char) : List (List Char) := splitOnDotAux t []

/-- Python substring containment `needle in haystack`: worker testing a
match at the current position. -/
def matchesAt : List Char → List Char → Bool
  | [], _ => true
  | _ :: _, [] => false
  | a :: as, b :: bs => a = b && matchesAt as bs

/-- Python substring containment `needle in haystack`. -/
def isSubstringOf (needle : List Char) : List Char → Bool
  | [] => needle = []
  | c :: rest => matchesAt needle (c :: rest) || isSubstringOf needle rest

/-- Python `int(x)` on a float: truncation toward zero. -/
def pyInt (x : ℚ) : ℤ := if 0 ≤ x then ⌊x⌋ else ⌈x⌉

/-- Nearest integer to `y`, ties to the even integer (the rounding rule
of Python's `round`). -/
def roundHalfEvenInt (y : ℚ) : ℤ :=
  let f : ℤ := ⌊y⌋
  let r : ℚ := y - f
  if r < 1/2 then f else if 1/2 < r then f + 1 else if f % 2 = 0 then f else f + 1

/-- Python `round(x, 2)`: round to a multiple of 1/100, ties to the even
hundredth (banker's rounding). -/
def pyRound2 (x : ℚ) : ℚ := (roundHalfEvenInt (x * 100) : ℚ) / 100

/-- Result dictionary of `TextPreprocessor.preprocess`. -/
structure PreprocessResult where
  normalized_text : List Char
  corrections : List String
  preserved_terms : List String
deriving DecidableEq, Repr

/-- `TextPreprocessor.preprocess` (text_preprocessor.py lines 9-50):
lowercase, collapse whitespace, strip punctuation other than periods and
commas, trim; each step that changes the text records a correction. -/
def preprocess (text : List Char) : PreprocessResult :=
  if text = [] then ⟨[], [], []⟩
  else
    let lowered := pyLower text
    let c1 : List String := if lowered ≠ text then ["Converted to lowercase"] else []
    let collapsed := collapseWs lowered
    let c2 : List String := if collapsed ≠ lowered then ["Normalized whitespace"] else []
    let depunct := collapsed.filter keptChar
    let c3 : List String := if depunct ≠ collapsed then ["Removed special punctuation"] else []
    ⟨stripL depunct, c1 ++ c2 ++ c3, []⟩

/-- The ordered domain/keyword table of `ContextAnalyzer.__init__`
(context_analyzer.py lines 4-13).  Python dicts preserve insertion
order, so the list order below is the iteration order of the source. -/
def technical_keywords : List (String × List String) :=
  [ ("CSE", ["algorithm", "code", "function", "variable", "loop", "array", "database",
             "network", "software", "programming"]),
    ("ECE", ["circuit", "signal", "frequency", "voltage", "current", "transistor",
             "amplifier", "digital", "analog"]),
    ("EEE", ["power", "motor", "generator", "transformer", "electrical", "energy",
             "voltage", "current"]),
    ("Mechanical", ["force", "motion", "energy", "heat", "machine", "engine",
                    "thermodynamics", "mechanics"]),
    ("Civil", ["structure", "concrete", "steel", "building", "construction",
               "foundation", "beam", "load"]),
    ("programming", ["code", "function", "variable", "algorithm", "loop", "array"]),
    ("mathematics", ["equation", "formula", "calculate", "solve", "theorem"]),
    ("science", ["experiment", "hypothesis", "theory", "analysis", "research"]) ]

/-- Per-domain hit counts: for each table entry, how many of its
keywords are substrings of the lowercased text (`analyze`, lines 35-41). -/
def domain_scores (text_lower : List Char) : List (String × Nat) :=
  technical_keywords.map
    (fun p => (p.1, (p.2.filter (fun k => isSubstringOf k.data text_lower)).length))

/-- All keyword hits appended in table order (`found_terms` in
`analyze`); may contain duplicates across domains. -/
def found_terms (text_lower : List Char) : List String :=
  (technical_keywords.map
    (fun p => p.2.filter (fun k => isSubstringOf k.data text_lower))).flatten

/-- Maximum of the hit counts, `max(domain_scores.values())` (the 0
base case is never reached on the nonempty table and is harmless for
`ℕ` values). -/
def maxValues (scores : List (String × Nat)) : Nat :=
  (scores.map Prod.snd).foldr max 0

/-- Python `max(domain_scores, key=domain_scores.get)`: scan in
iteration order keeping the first entry whose value is strictly larger
than the current best, hence ties keep the earliest entry. -/
def pyMaxBy : List (String × Nat) → (String × Nat) → (String × Nat)
  | [], best => best
  | p :: rest, best => pyMaxBy rest (if best.2 < p.2 then p else best)

/-- Domain selection of `analyze` (line 43):
`max(domain_scores, key=domain_scores.get) if max(values) > 0 else 'general'`. -/
def detectDomain (scores : List (String × Nat)) : String :=
  match scores with
  | [] => "general"
  | p :: rest => if 0 < maxValues (p :: rest) then (pyMaxBy rest p).1 else "general"

/-- Result dictionary of `ContextAnalyzer.analyze`. -/
structure ContextProfile where
  domain : String
  complexity : String
  concepts : List String
  technical_terms : List String
  word_count : Nat
  technical_score : Nat
deriving DecidableEq, Repr

/-- `ContextAnalyzer.analyze` (context_analyzer.py lines 15-63).
`concepts = list(set(found_terms))` is embedded as `dedup`; only the
underlying set of concepts is ever consumed downstream. -/
def analyze (text : List Char) : ContextProfile :=
  if text = [] then ⟨"general", "low", [], [], 0, 0⟩
  else
    let text_lower := pyLower text
    let words := pySplit text
    let scores := domain_scores text_lower
    let terms := found_terms text_lower
    let total := (scores.map Prod.snd).foldr (· + ·) 0
    let complexity :=
      if words.length > 100 ∨ total > 3 then "high"
      else if words.length > 50 then "medium"
      else "low"
    ⟨detectDomain scores, complexity, terms.dedup, terms, words.length, total⟩

/-- `ContextAnalyzer.calculate_concept_coverage` (lines 65-79).
Set intersection cardinality is computed as the length of the
deduplicated student list filtered by membership in the model set. -/
def calculate_concept_coverage (student_concepts model_concepts : List String) : ℚ :=
  if model_concepts = [] then 1
  else
    let student_set := student_concepts.dedup
    let model_set := model_concepts.dedup
    if model_set = [] then 1
    else ((student_set.filter (fun c => c ∈ model_set)).length : ℚ) / (model_set.length : ℚ)

/-- `EnsembleEvaluator._calculate_semantic_similarity` (lines 78-89):
Jaccard similarity of the lowercased word sets.  `len(words1 ∪ words2)`
is computed as `|set1| + |set2 \ set1|`. -/
def calculate_semantic_similarity (text1 text2 : List Char) : ℚ :=
  let words1 := (pySplit (pyLower text1)).dedup
  let words2 := (pySplit (pyLower text2)).dedup
  if words1 = [] ∨ words2 = [] then 0
  else
    let inter := (words1.filter (fun w => w ∈ words2)).length
    let union := words1.length + (words2.filter (fun w => w ∉ words1)).length
    if 0 < union then (inter : ℚ) / (union : ℚ) else 0

/-- `EnsembleEvaluator._calculate_keyword_similarity` (lines 91-100):
reference tokens (with duplicates) found anywhere in the candidate
tokens, over the larger token count. -/
def calculate_keyword_similarity (text1 text2 : List Char) : ℚ :=
  let words1 := pySplit (pyLower text1)
  let words2 := pySplit (pyLower text2)
  if words1 = [] ∨ words2 = [] then 0
  else ((words1.filter (fun w => w ∈ words2)).length : ℚ) / ((max words1.length words2.length : ℕ) : ℚ)

/-- `EnsembleEvaluator._calculate_length_similarity` (lines 102-111). -/
def calculate_length_similarity (text1 text2 : List Char) : ℚ :=
  let len1 := (pySplit text1).length
  let len2 := (pySplit text2).length
  if len1 = 0 ∧ len2 = 0 then 1
  else if len1 = 0 ∨ len2 = 0 then 0
  else ((min len1 len2 : ℕ) : ℚ) / ((max len1 len2 : ℕ) : ℚ)

/-- Count of non-blank sentences:
`len([s for s in text.split('.') if s.strip()])`. -/
def sentenceCount (t : List Char) : Nat :=
  ((splitOnDot t).filter (fun s => stripL s ≠ [])).length

/-- `EnsembleEvaluator._calculate_structure_similarity` (lines 113-124). -/
def calculate_structure_similarity (text1 text2 : List Char) : ℚ :=
  let s1 := sentenceCount text1
  let s2 := sentenceCount text2
  if s1 = 0 ∧ s2 = 0 then 1
  else if s1 = 0 ∨ s2 = 0 then 1/2
  else ((min s1 s2 : ℕ) : ℚ) / ((max s1 s2 : ℕ) : ℚ)

/-- Result dictionary of `EnsembleEvaluator.ensemble_evaluate`; the four
signal fields are the entries of `model_scores` (timing omitted). -/
structure EnsembleResult where
  weighted_score : ℚ
  confidence : ℚ
  semantic_similarity : ℚ
  keyword_matching : ℚ
  length_similarity : ℚ
  structure_similarity : ℚ
  variance : ℚ
deriving DecidableEq, Repr

/-- `EnsembleEvaluator.ensemble_evaluate` (ensemble_evaluator.py lines
14-71) with weights semantic 0.6, keyword 0.2, length 0.1, structure
0.1; variance is `np.var`, the population variance.  In the source the
empty-input early return carries an empty `model_scores` dict; its four
signal fields are set to 0 here and are never consumed on that path. -/
def ensemble_evaluate (model_answer student_answer : List Char) : EnsembleResult :=
  if model_answer = [] ∨ student_answer = [] then ⟨0, 0, 0, 0, 0, 0, 0⟩
  else
    let semantic_score := calculate_semantic_similarity model_answer student_answer
    let keyword_score := calculate_keyword_similarity model_answer student_answer
    let length_score := calculate_length_similarity model_answer student_answer
    let structure_score := calculate_structure_similarity model_answer student_answer
    let ws := semantic_score * 0.6 + keyword_score * 0.2 + length_score * 0.1 +
      structure_score * 0.1
    let weighted_score := min (max ws 0) 1
    let mean := (semantic_score + keyword_score + length_score + structure_score) / 4
    let variance := ((semantic_score - mean) ^ 2 + (keyword_score - mean) ^ 2 +
      (length_score - mean) ^ 2 + (structure_score - mean) ^ 2) / 4
    let confidence := max 0.5 (1 - min variance 1)
    ⟨weighted_score, confidence, semantic_score, keyword_score, length_score,
      structure_score, variance⟩

/-- `ScoringAlgorithm._calculate_confidence` (scoring_algorithm.py lines
73-92). -/
def calculate_confidence (ensemble_score concept_coverage : ℚ)
    (key_concepts_present total_key_concepts : ℤ) : ℚ :=
  let base1 : ℚ := 0.7
  let base2 := if concept_coverage > 0.8 then base1 + 0.2
    else if concept_coverage > 0.6 then base1 + 0.1 else base1
  let base3 := if ensemble_score < 0.3 then base2 - 0.2 else base2
  let base4 := if key_concepts_present = 0 ∧ total_key_concepts > 0 then base3 - 0.3 else base3
  max 0.3 (min 1 base4)

/-- Result dictionary of `ScoringAlgorithm.calculate_final_score`
(breakdown omitted: every field of it is one of these values or an
input rounded for display). -/
structure ScoringResult where
  similarity : ℚ
  score : ℚ
  confidence : ℚ
deriving DecidableEq, Repr

/-- `ScoringAlgorithm.calculate_final_score` (scoring_algorithm.py lines
15-71).  `none` models the `ZeroDivisionError` raised by
`key_concepts_present / total_key_concepts` when the partial-credit
branch runs with `total_key_concepts == 0`. -/
def calculate_final_score (ensemble_score concept_coverage : ℚ)
    (key_concepts_present total_key_concepts : ℤ) : Option ScoringResult :=
  let concept_bonus := concept_coverage * 0.15
  let adjusted0 := min (ensemble_score + concept_bonus) 1
  if adjusted0 < 0.5 ∧ 0 < key_concepts_present ∧ total_key_concepts = 0 then none
  else
    let adjusted_similarity :=
      if adjusted0 < 0.5 ∧ 0 < key_concepts_present then
        max adjusted0 (((key_concepts_present : ℚ) / (total_key_concepts : ℚ)) * 0.3)
      else adjusted0
    let confidence := calculate_confidence ensemble_score concept_coverage
      key_concepts_present total_key_concepts
    let final_score := max 0 (min 6 (pyRound2 (adjusted_similarity * 6)))
    some ⟨adjusted_similarity, final_score, confidence⟩

/-- Response dictionary built by `enhanced_evaluate` / the `/evaluate`
handler in sbert_service.py. -/
structure EvalResponse where
  similarity : ℚ
  score : ℚ
  confidence : ℚ
  needs_review : Bool
deriving DecidableEq, Repr

/-- Intermediate values of `enhanced_evaluate` (sbert_service.py lines
836-962): ensemble score, concept coverage, and the two concept counts
fed to the scorer. -/
def pipelineStats (model_answer student_answer : List Char) : ℚ × ℚ × ℤ × ℤ :=
  let model_text := (preprocess model_answer).normalized_text
  let student_text := (preprocess student_answer).normalized_text
  let model_concepts := (analyze model_text).concepts
  let student_concepts := (analyze student_text).concepts
  let concept_coverage := calculate_concept_coverage student_concepts model_concepts
  let key_concepts_present : ℤ := pyInt (concept_coverage * (model_concepts.length : ℚ))
  let total_key_concepts : ℤ := (model_concepts.length : ℤ)
  let ensemble_score := (ensemble_evaluate model_text student_text).weighted_score
  (ensemble_score, concept_coverage, key_concepts_present, total_key_concepts)

/-- `enhanced_evaluate` (sbert_service.py lines 810-1006): run the
pipeline, then `needs_review = final_confidence < 0.7` where
`final_confidence` is the scoring-stage confidence. -/
def enhanced_evaluate (model_answer student_answer : List Char) : Option EvalResponse :=
  let st := pipelineStats model_answer student_answer
  (calculate_final_score st.1 st.2.1 st.2.2.1 st.2.2.2).map
    (fun r => ⟨r.similarity, r.score, r.confidence, decide (r.confidence < 0.7)⟩)

/-- The `/evaluate` request handler (sbert_service.py lines 713-754):
strip both inputs, short-circuit on an empty model answer, then on an
empty student answer, otherwise run `enhanced_evaluate`. -/
def evaluateEndpoint (model_answer student_answer : List Char) : Option EvalResponse :=
  let m := stripL model_answer
  let s := stripL student_answer
  if m = [] then some ⟨0, 0, 0, true⟩
  else if s = [] then some ⟨0, 0, 1, false⟩
  else enhanced_evaluate m s

/-- Convenience: the characters of a string literal. -/
def chars (s : String) : List Char := s.data

/-- A character the lowercase pass leaves alone. -/
def NotUpperChar (c : Char) : Prop := ¬ (65 ≤ c.toNat ∧ c.toNat ≤ 90)

/-- Whitespace shape produced by `collapseWs`: every whitespace
character is a plain space, and no two adjacent characters are both
whitespace. -/
def SpacedOk (l : List Char) : Prop :=
  (∀ c ∈ l, pyIsSpace c = true → c = ' ') ∧
    l.Chain' (fun a b => ¬ (pyIsSpace a = true ∧ pyIsSpace b = true))


/-- Modelled from the spec's words, for comparison with
`calculate_confidence`: base 0.7; +0.2 if coverage > 0.8, else +0.1 if
coverage > 0.6; -0.2 if ensemble score < 0.3; -0.3 if no key concept is
present though some were expected; clamped to [0.3, 1.0]. -/
def specScoreConfidence (ensemble_score concept_coverage : ℚ)
    (key_concepts_present total_key_concepts : ℤ) : ℚ :=
  max 0.3 (min 1
    (0.7 + (if concept_coverage > 0.8 then 0.2 else if concept_coverage > 0.6 then 0.1 else 0)
         - (if ensemble_score < 0.3 then 0.2 else 0)
         - (if key_concepts_present = 0 ∧ total_key_concepts > 0 then 0.3 else 0)))

/-- Modelled from the spec's words, for comparison with `detectDomain`:
the first entry of the table, in its fixed order, achieving the maximum
hit count, or "general" when every count is 0. -/
def specFirstMaxDomain (scores : List (String × Nat)) : String :=
  if maxValues scores = 0 then "general"
  else ((scores.find? (fun q => q.2 = maxValues scores)).map Prod.fst).getD ("general")

/-! ### Helper lemmas -/

theorem char_toNat_ofNat {n : Nat} (h : n < 55296) : (Char.ofNat n).toNat = n := by
  have hv : n.isValidChar := Or.inl h
  rw [Char.ofNat, dif_pos hv]
  rfl

theorem calculate_confidence_eq_spec (es cc : ℚ) (kcp tkc : ℤ) :
    calculate_confidence es cc kcp tkc = specScoreConfidence es cc kcp tkc := by
  unfold calculate_confidence specScoreConfidence
  split_ifs <;> norm_num

theorem calculate_confidence_le (es cc : ℚ) (kcp tkc : ℤ) :
    calculate_confidence es cc kcp tkc ≤ 0.9 := by
  unfold calculate_confidence
  split_ifs <;> norm_num [max_le_iff, min_le_iff]

theorem calculate_confidence_bounds (es cc : ℚ) (kcp tkc : ℤ) :
    0.3 ≤ calculate_confidence es cc kcp tkc ∧ calculate_confidence es cc kcp tkc ≤ 1 := by
  unfold calculate_confidence
  split_ifs <;>
    exact ⟨le_max_left _ _, max_le (by norm_num) (min_le_left _ _)⟩

theorem partial_credit_nonneg {kcp tkc : ℤ} (h0 : 0 ≤ kcp) (h1 : 0 ≤ tkc) :
    0 ≤ (kcp : ℚ) / (tkc : ℚ) * 0.3 := by
  have : (0:ℚ) ≤ (kcp : ℚ) / (tkc : ℚ) :=
    div_nonneg (by exact_mod_cast h0) (by exact_mod_cast h1)
  nlinarith

theorem partial_credit_le {kcp tkc : ℤ} (h0 : 0 < kcp) (hle : kcp ≤ tkc) :
    (kcp : ℚ) / (tkc : ℚ) * 0.3 ≤ 0.3 := by
  have htk : (0:ℤ) < tkc := lt_of_lt_of_le h0 hle
  have hdiv : (kcp : ℚ) / (tkc : ℚ) ≤ 1 := by
    rw [div_le_one (by exact_mod_cast htk)]
    exact_mod_cast hle
  nlinarith

theorem clamped_score_bounds (x : ℚ) :
    0 ≤ max 0 (min 6 (pyRound2 x)) ∧ max 0 (min 6 (pyRound2 x)) ≤ 6 ∧
      ∃ n : ℤ, max 0 (min 6 (pyRound2 x)) = (n : ℚ) / 100 := by
  refine ⟨le_max_left 0 _, max_le (by norm_num) (min_le_left _ _), ?_⟩
  have hn : pyRound2 x = ((roundHalfEvenInt (x * 100) : ℤ) : ℚ) / 100 := rfl
  set n : ℤ := roundHalfEvenInt (x * 100) with hset
  rw [hn]
  rcases le_total ((n : ℚ) / 100) 0 with h | h
  · exact ⟨0, by rw [max_eq_left (le_trans (min_le_right _ _) h)]; norm_num⟩
  · rcases le_total ((n : ℚ) / 100) 6 with h6 | h6
    · exact ⟨n, by rw [min_eq_right h6, max_eq_right h]⟩
    · exact ⟨600, by rw [min_eq_left h6, max_eq_right (by norm_num)]; norm_num⟩

theorem calculate_final_score_elim (es cc : ℚ) (kcp tkc : ℤ) (r : ScoringResult)
    (h : calculate_final_score es cc kcp tkc = some r) :
    r.confidence = calculate_confidence es cc kcp tkc ∧
    r.score = max 0 (min 6 (pyRound2 (r.similarity * 6))) ∧
    ((r.similarity = min (es + cc * 0.15) 1 ∧ ¬ (min (es + cc * 0.15) 1 < 0.5 ∧ 0 < kcp)) ∨
      (min (es + cc * 0.15) 1 < 0.5 ∧ 0 < kcp ∧
        r.similarity = max (min (es + cc * 0.15) 1) ((kcp : ℚ) / (tkc : ℚ) * 0.3))) := by
  simp only [calculate_final_score] at h
  split_ifs at h with h1 h2
  · rw [Option.some.injEq] at h
    subst h
    exact ⟨rfl, rfl, Or.inr ⟨h2.1, h2.2, rfl⟩⟩
  · rw [Option.some.injEq] at h
    subst h
    exact ⟨rfl, rfl, Or.inl ⟨rfl, h2⟩⟩

/-! ### Claim theorems -/

/-- Claim C9: the partial-credit division is guarded only by
`key_concepts_present > 0`; under `key_concepts_present ≤
total_key_concepts` the division-by-zero branch is unreachable and the
function is total, while the concrete input witnessing
`key_concepts_present > 0`, `total_key_concepts = 0` and
`ensemble_score + 0.15·coverage < 0.5` makes it raise
(`none` in the embedding). -/
theorem claim9_division_guard :
    (∀ (es cc : ℚ) (kcp tkc : ℤ), kcp ≤ tkc →
      (calculate_final_score es cc kcp tkc).isSome = true) ∧
    ((0:ℤ) < 1 ∧ (0.2 : ℚ) + 0.15 * 0.5 < 0.5 ∧
      calculate_final_score 0.2 0.5 1 0 = none) := by
  constructor
  · intro es cc kcp tkc hle
    simp only [calculate_final_score]
    split_ifs with h1 h2
    · exact absurd h1.2.2 (by have := lt_of_lt_of_le h1.2.1 hle; omega)
    · rfl
    · rfl
  · refine ⟨by norm_num, by norm_num, by with_unfolding_all decide⟩

theorem claim9_division_guard_witness :
    ((0:ℤ) ≤ 0) ∧ (calculate_final_score 0 0 0 0).isSome = true :=
  ⟨le_refl 0, claim9_division_guard.1 0 0 0 0 (le_refl 0)⟩

/-- Claim C10: under `0 ≤ ensemble_score ≤ 1`, `0 ≤ concept_coverage`
and `0 ≤ key_concepts_present ≤ total_key_concepts`, the similarity
returned by `calculate_final_score` is at least the ensemble score: the
bonus and partial-credit rules only raise it. -/
theorem claim10_never_lowers :
    ∀ (es cc : ℚ) (kcp tkc : ℤ) (r : ScoringResult), 0 ≤ es → es ≤ 1 → 0 ≤ cc →
      0 ≤ kcp → kcp ≤ tkc → calculate_final_score es cc kcp tkc = some r →
      es ≤ r.similarity := by
  intro es cc kcp tkc r _ hes1 hcc0 _ _ h
  have hbase : es ≤ min (es + cc * 0.15) 1 :=
    le_min (le_add_of_nonneg_right (mul_nonneg hcc0 (by norm_num))) hes1
  rcases (calculate_final_score_elim es cc kcp tkc r h).2.2 with ⟨hs, _⟩ | ⟨_, _, hs⟩
  · rw [hs]; exact hbase
  · rw [hs]; exact le_trans hbase (le_max_left _ _)

theorem claim10_never_lowers_witness :
    ((0:ℚ) ≤ 0.4 ∧ (0.4:ℚ) ≤ 1 ∧ (0:ℚ) ≤ 1 ∧ (0:ℤ) ≤ 2 ∧ (2:ℤ) ≤ 3 ∧
      calculate_final_score 0.4 1 2 3 = some ⟨0.55, 3.3, 0.9⟩) ∧
    (0.4 : ℚ) ≤ (ScoringResult.mk 0.55 3.3 0.9).similarity := by
  have hfs : calculate_final_score 0.4 1 2 3 = some ⟨0.55, 3.3, 0.9⟩ := by
    with_unfolding_all decide
  exact ⟨⟨by norm_num, by norm_num, by norm_num, by norm_num, by norm_num, hfs⟩,
    claim10_never_lowers 0.4 1 2 3 ⟨0.55, 3.3, 0.9⟩ (by norm_num) (by norm_num)
      (by norm_num) (by norm_num) (by norm_num) hfs⟩

/-- Claim C6 (as stated) is false: with `ensemble_score = 0.45`,
`key_concepts_present = 2`, `total_key_concepts = 1` fixed and
coverages `0 ≤ 0.4` both in `[0,1]`, the adjusted similarity drops from
0.6 to 0.51 when the coverage rises across the partial-credit boundary. -/
theorem claim6_counterexample :
    ((0:ℚ) ≤ 0.4 ∧ (0:ℚ) ≤ 0 ∧ (0.4:ℚ) ≤ 1) ∧
    calculate_final_score 0.45 0 2 1 = some ⟨0.6, 3.6, 0.7⟩ ∧
    calculate_final_score 0.45 0.4 2 1 = some ⟨0.51, 3.06, 0.7⟩ ∧
    ¬ ((ScoringResult.mk 0.6 3.6 0.7).similarity ≤
        (ScoringResult.mk 0.51 3.06 0.7).similarity) := by
  refine ⟨⟨by norm_num, le_refl 0, by norm_num⟩, ?_, ?_, ?_⟩
  · with_unfolding_all decide
  · with_unfolding_all decide
  · with_unfolding_all decide

/-- Claim C6 amended: the monotonicity additionally needs
`0 ≤ key_concepts_present ≤ total_key_concepts` (always true of
pipeline inputs); with it, for fixed ensemble score and concept counts
and coverages `c1 ≤ c2` in `[0,1]`, the adjusted similarity for `c2` is
at least the one for `c1`, also across the partial-credit boundary. -/
theorem claim6_amended_monotone :
    ∀ (es c1 c2 : ℚ) (kcp tkc : ℤ) (r1 r2 : ScoringResult), 0 ≤ c1 → c1 ≤ c2 → c2 ≤ 1 →
      0 ≤ kcp → kcp ≤ tkc →
      calculate_final_score es c1 kcp tkc = some r1 →
      calculate_final_score es c2 kcp tkc = some r2 →
      r1.similarity ≤ r2.similarity := by
  intro es c1 c2 kcp tkc r1 r2 _ h12 _ hk0 hkt h1 h2
  have ha : min (es + c1 * 0.15) 1 ≤ min (es + c2 * 0.15) 1 :=
    min_le_min (by nlinarith) (le_refl 1)
  rcases (calculate_final_score_elim es c1 kcp tkc r1 h1).2.2 with ⟨hs1, hn1⟩ | ⟨hb1, hp1, hs1⟩ <;>
    rcases (calculate_final_score_elim es c2 kcp tkc r2 h2).2.2 with ⟨hs2, hn2⟩ | ⟨hb2, hp2, hs2⟩
  · rw [hs1, hs2]; exact ha
  · rw [hs1, hs2]; exact le_trans ha (le_max_left _ _)
  · -- partial credit at c1 but not at c2: the guard failed at c2
    -- although key_concepts_present > 0, so the adjusted base at c2 is
    -- at least 0.5, while partial credit is at most 0.3.
    rw [hs1, hs2]
    have hpc := partial_credit_le hp1 hkt
    have hge : ¬ (min (es + c2 * 0.15) 1 < 0.5) := fun hlt => hn2 ⟨hlt, hp1⟩
    push_neg at hge
    exact max_le (le_trans ha (le_refl _)) (by linarith)
  · rw [hs1, hs2]
    exact max_le_max ha (le_refl _)

theorem claim6_amended_monotone_witness :
    ((0:ℚ) ≤ 0 ∧ (0:ℚ) ≤ 1 ∧ (1:ℚ) ≤ 1 ∧ (0:ℤ) ≤ 0 ∧ (0:ℤ) ≤ 0 ∧
      calculate_final_score 0 0 0 0 = some ⟨0, 0, 0.5⟩ ∧
      calculate_final_score 0 1 0 0 = some ⟨0.15, 0.9, 0.7⟩) ∧
    (ScoringResult.mk 0 0 0.5).similarity ≤ (ScoringResult.mk 0.15 0.9 0.7).similarity := by
  have hf1 : calculate_final_score 0 0 0 0 = some ⟨0, 0, 0.5⟩ := by
    with_unfolding_all decide
  have hf2 : calculate_final_score 0 1 0 0 = some ⟨0.15, 0.9, 0.7⟩ := by
    with_unfolding_all decide
  exact ⟨⟨le_refl 0, by norm_num, le_refl 1, le_refl 0, le_refl 0, hf1, hf2⟩,
    claim6_amended_monotone 0 0 1 0 0 ⟨0, 0, 0.5⟩ ⟨0.15, 0.9, 0.7⟩ (le_refl 0)
      (by norm_num) (le_refl 1) (le_refl 0) (le_refl 0) hf1 hf2⟩

theorem enhanced_evaluate_elim (m s : List Char) (r : EvalResponse)
    (h : enhanced_evaluate m s = some r) :
    ∃ sc : ScoringResult,
      calculate_final_score (pipelineStats m s).1 (pipelineStats m s).2.1
          (pipelineStats m s).2.2.1 (pipelineStats m s).2.2.2 = some sc ∧
        r = ⟨sc.similarity, sc.score, sc.confidence, decide (sc.confidence < 0.7)⟩ := by
  simp only [enhanced_evaluate, Option.map_eq_some'] at h
  obtain ⟨sc, hsc, hr⟩ := h
  exact ⟨sc, hsc, hr.symm⟩

/-- Claim C1: every ensemble weighted score and ensemble confidence lies
in [0,1]; and whenever the scorer is called with ensemble score and
concept coverage in [0,1] and 0 ≤ key_concepts_present ≤
total_key_concepts, the returned adjusted similarity and confidence lie
in [0,1] and the final score lies in [0,6] and is a whole number of
hundredths (rounded to two decimals). -/
theorem claim1_bounds :
    (∀ m s : List Char, 0 ≤ (ensemble_evaluate m s).weighted_score ∧
        (ensemble_evaluate m s).weighted_score ≤ 1 ∧
        0 ≤ (ensemble_evaluate m s).confidence ∧ (ensemble_evaluate m s).confidence ≤ 1) ∧
    (∀ (es cc : ℚ) (kcp tkc : ℤ) (r : ScoringResult), 0 ≤ es → es ≤ 1 → 0 ≤ cc → cc ≤ 1 →
      0 ≤ kcp → kcp ≤ tkc → calculate_final_score es cc kcp tkc = some r →
      (0 ≤ r.similarity ∧ r.similarity ≤ 1) ∧ (0 ≤ r.confidence ∧ r.confidence ≤ 1) ∧
        (0 ≤ r.score ∧ r.score ≤ 6) ∧ ∃ n : ℤ, r.score = (n : ℚ) / 100) := by
  constructor
  · intro m s
    simp only [ensemble_evaluate]
    split_ifs with h
    · norm_num
    · dsimp only
      refine ⟨le_min (le_max_right _ _) zero_le_one, min_le_right _ _, ?_, ?_⟩
      · exact le_trans (by norm_num) (le_max_left (0.5 : ℚ) _)
      · refine max_le (by norm_num) ?_
        have hv : (0:ℚ) ≤
            ((calculate_semantic_similarity m s -
                  (calculate_semantic_similarity m s + calculate_keyword_similarity m s +
                      calculate_length_similarity m s + calculate_structure_similarity m s) / 4) ^ 2 +
                (calculate_keyword_similarity m s -
                  (calculate_semantic_similarity m s + calculate_keyword_similarity m s +
                      calculate_length_similarity m s + calculate_structure_similarity m s) / 4) ^ 2 +
                (calculate_length_similarity m s -
                  (calculate_semantic_similarity m s + calculate_keyword_similarity m s +
                      calculate_length_similarity m s + calculate_structure_similarity m s) / 4) ^ 2 +
                (calculate_structure_similarity m s -
                  (calculate_semantic_similarity m s + calculate_keyword_similarity m s +
                      calculate_length_similarity m s + calculate_structure_similarity m s) / 4) ^ 2) / 4 :=
          by positivity
        have : (0:ℚ) ≤ min _ 1 := le_min hv zero_le_one
        linarith
  · intro es cc kcp tkc r hes0 hes1 hcc0 hcc1 hk0 hkt h
    obtain ⟨hcf, hsc, hsim⟩ := calculate_final_score_elim es cc kcp tkc r h
    have ha00 : 0 ≤ min (es + cc * 0.15) 1 :=
      le_min (by nlinarith) zero_le_one
    have ha01 : min (es + cc * 0.15) 1 ≤ 1 := min_le_right _ _
    have hsb : 0 ≤ r.similarity ∧ r.similarity ≤ 1 := by
      rcases hsim with ⟨hs, _⟩ | ⟨_, hp, hs⟩
      · rw [hs]; exact ⟨ha00, ha01⟩
      · rw [hs]
        constructor
        · exact le_trans ha00 (le_max_left _ _)
        · exact max_le ha01 (le_trans (partial_credit_le hp hkt) (by norm_num))
    refine ⟨hsb, ?_, ?_, ?_⟩
    · rw [hcf]
      have := calculate_confidence_bounds es cc kcp tkc
      exact ⟨by linarith [this.1], this.2⟩
    · rw [hsc]
      exact ⟨(clamped_score_bounds (r.similarity * 6)).1, (clamped_score_bounds _).2.1⟩
    · rw [hsc]
      exact (clamped_score_bounds _).2.2

theorem claim1_bounds_witness :
    (0 ≤ (ensemble_evaluate (chars "a b") (chars "b c")).weighted_score ∧
      (ensemble_evaluate (chars "a b") (chars "b c")).weighted_score ≤ 1 ∧
      0 ≤ (ensemble_evaluate (chars "a b") (chars "b c")).confidence ∧
      (ensemble_evaluate (chars "a b") (chars "b c")).confidence ≤ 1) ∧
    ((0:ℚ) ≤ 0.25 ∧ (0.25:ℚ) ≤ 1 ∧ (0:ℚ) ≤ 0.5 ∧ (0.5:ℚ) ≤ 1 ∧ (0:ℤ) ≤ 1 ∧ (1:ℤ) ≤ 2 ∧
      calculate_final_score 0.25 0.5 1 2 = some ⟨0.325, 1.95, 0.5⟩) ∧
    ((0 ≤ (ScoringResult.mk 0.325 1.95 0.5).similarity ∧
        (ScoringResult.mk 0.325 1.95 0.5).similarity ≤ 1) ∧
      (0 ≤ (ScoringResult.mk 0.325 1.95 0.5).confidence ∧
        (ScoringResult.mk 0.325 1.95 0.5).confidence ≤ 1) ∧
      (0 ≤ (ScoringResult.mk 0.325 1.95 0.5).score ∧
        (ScoringResult.mk 0.325 1.95 0.5).score ≤ 6) ∧
      ∃ n : ℤ, (ScoringResult.mk 0.325 1.95 0.5).score = (n : ℚ) / 100) := by
  have hfs : calculate_final_score 0.25 0.5 1 2 = some ⟨0.325, 1.95, 0.5⟩ := by
    with_unfolding_all decide
  refine ⟨claim1_bounds.1 (chars "a b") (chars "b c"), ?_, ?_⟩
  · exact ⟨by norm_num, by norm_num, by norm_num, by norm_num, by norm_num, by norm_num, hfs⟩
  · exact claim1_bounds.2 0.25 0.5 1 2 ⟨0.325, 1.95, 0.5⟩ (by norm_num) (by norm_num)
      (by norm_num) (by norm_num) (by norm_num) (by norm_num) hfs

/-- Claim C8: the scoring-stage confidence is always at most 0.9 (the
+0.2 and +0.1 coverage boosts are mutually exclusive, so the 1.0 clamp
is unreachable), and a response confidence of 1.0 can only come from
the empty-candidate bypass of the endpoint, never from the scoring
stage. -/
theorem claim8_confidence_cap :
    (∀ (es cc : ℚ) (kcp tkc : ℤ), calculate_confidence es cc kcp tkc ≤ 0.9) ∧
    (∀ (m s : List Char) (r : EvalResponse), evaluateEndpoint m s = some r →
      r.confidence = 1 → stripL m ≠ [] ∧ stripL s = []) := by
  refine ⟨calculate_confidence_le, ?_⟩
  intro m s r h hconf
  simp only [evaluateEndpoint] at h
  split_ifs at h with h1 h2
  · rw [Option.some.injEq] at h
    subst h
    simp at hconf
  · exact ⟨h1, h2⟩
  · exfalso
    obtain ⟨sc, hsc, hr⟩ := enhanced_evaluate_elim _ _ _ h
    subst hr
    have hle := calculate_confidence_le (pipelineStats (stripL m) (stripL s)).1
      (pipelineStats (stripL m) (stripL s)).2.1 (pipelineStats (stripL m) (stripL s)).2.2.1
      (pipelineStats (stripL m) (stripL s)).2.2.2
    rw [← (calculate_final_score_elim _ _ _ _ _ hsc).1] at hle
    simp only [EvalResponse.confidence] at hconf
    rw [hconf] at hle
    norm_num at hle

theorem claim8_confidence_cap_witness :
    calculate_confidence 1 1 1 1 ≤ 0.9 ∧
    (stripL (chars "a") ≠ [] ∧ stripL (chars " ") = []) := by
  refine ⟨claim8_confidence_cap.1 1 1 1 1, ?_⟩
  exact claim8_confidence_cap.2 (chars "a") (chars " ") ⟨0, 0, 1, false⟩
    (by with_unfolding_all decide) rfl

/-- Claim C2: for every evaluation response, needs_review is true
exactly when the response confidence is below 0.7, and on the full
pipeline path that confidence is the scoring-stage confidence computed
from the pipeline's ensemble score, coverage and concept counts by the
spec formula (base 0.7, the exclusive coverage boosts, the low-score
and no-concept deductions, clamped to [0.3, 1.0]) - not the ensemble
confidence. -/
theorem claim2_needs_review :
    ∀ (m s : List Char) (r : EvalResponse), evaluateEndpoint m s = some r →
      (r.needs_review = true ↔ r.confidence < 0.7) ∧
      (∀ (es cc : ℚ) (kcp tkc : ℤ), stripL m ≠ [] → stripL s ≠ [] →
        pipelineStats (stripL m) (stripL s) = (es, cc, kcp, tkc) →
        r.confidence = specScoreConfidence es cc kcp tkc) := by
  intro m s r h
  simp only [evaluateEndpoint] at h
  split_ifs at h with h1 h2
  · rw [Option.some.injEq] at h
    subst h
    refine ⟨by norm_num, ?_⟩
    intro es cc kcp tkc hm _ _
    exact absurd h1 hm
  · rw [Option.some.injEq] at h
    subst h
    refine ⟨by norm_num, ?_⟩
    intro es cc kcp tkc _ hs _
    exact absurd h2 hs
  · obtain ⟨sc, hsc, hr⟩ := enhanced_evaluate_elim _ _ _ h
    subst hr
    have hcf := (calculate_final_score_elim _ _ _ _ _ hsc).1
    constructor
    · exact decide_eq_true_iff
    · intro es cc kcp tkc _ _ hst
      rw [hst] at hcf
      simp only [EvalResponse.confidence]
      rw [hcf]
      exact calculate_confidence_eq_spec es cc kcp tkc

theorem claim2_needs_review_witness :
    ((false = true) ↔ ((9/10 : ℚ) < 0.7)) ∧ (9/10 : ℚ) = specScoreConfidence 1 1 0 0 := by
  have h := claim2_needs_review (chars "x") (chars "x") ⟨1, 6, 9/10, false⟩
    (by with_unfolding_all decide)
  exact ⟨h.1, h.2 1 1 0 0 (by decide) (by decide) (by with_unfolding_all decide)⟩

theorem maxValues_cons (p : String × Nat) (l : List (String × Nat)) :
    maxValues (p :: l) = max p.2 (maxValues l) := rfl

theorem le_maxValues_of_mem {q : String × Nat} {l : List (String × Nat)} (h : q ∈ l) :
    q.2 ≤ maxValues l := by
  induction l with
  | nil => cases h
  | cons x t ih =>
    rw [maxValues_cons]
    rcases List.mem_cons.mp h with rfl | h
    · exact le_max_left _ _
    · exact le_trans (ih h) (le_max_right _ _)

theorem pyMaxBy_eq_self {p : String × Nat} {l : List (String × Nat)}
    (h : ∀ q ∈ l, q.2 ≤ p.2) : pyMaxBy l p = p := by
  induction l with
  | nil => rfl
  | cons x t ih =>
    have hx : ¬ p.2 < x.2 := not_lt.mpr (h x (List.mem_cons_self x t))
    simp only [pyMaxBy, if_neg hx]
    exact ih (fun q hq => h q (List.mem_cons_of_mem x hq))

theorem find?_first_max (l : List (String × Nat)) :
    ∀ (p : String × Nat) (V : Nat), V = maxValues (p :: l) →
      (p :: l).find? (fun q => q.2 = V) = some (pyMaxBy l p) := by
  induction l with
  | nil =>
    intro p V hV
    have hpV : p.2 = V := by rw [hV, maxValues_cons]; simp [maxValues]
    rw [List.find?_cons_of_pos _ (by simp [hpV])]
    rfl
  | cons x t ih =>
    intro p V hV
    by_cases hx : p.2 < x.2
    · have hV2 : V = maxValues (x :: t) := by
        rw [hV, maxValues_cons]
        exact max_eq_right (le_trans hx.le (by rw [maxValues_cons]; exact le_max_left _ _))
      have hne : p.2 ≠ V := by
        rw [hV2, maxValues_cons]
        have := le_max_left x.2 (maxValues t)
        omega
      rw [List.find?_cons_of_neg _ (by simp [hne])]
      rw [show pyMaxBy (x :: t) p = pyMaxBy t x by simp [pyMaxBy, if_pos hx]]
      exact ih x V hV2
    · push_neg at hx
      have hV2 : V = maxValues (p :: t) := by
        rw [hV, maxValues_cons, maxValues_cons, maxValues_cons, ← max_assoc,
          max_eq_left hx]
      rw [show pyMaxBy (x :: t) p = pyMaxBy t p by
        simp [pyMaxBy, if_neg (not_lt.mpr hx)]]
      by_cases hp : p.2 = V
      · rw [List.find?_cons_of_pos _ (by simp [hp])]
        have hMle : maxValues t ≤ p.2 := by
          have h1 : maxValues t ≤ maxValues (p :: t) := by
            rw [maxValues_cons]; exact le_max_right _ _
          rw [← hV2, ← hp] at h1
          exact h1
        rw [pyMaxBy_eq_self (fun q hq => le_trans (le_maxValues_of_mem hq) hMle)]
      · have hple : p.2 ≤ V := by rw [hV, maxValues_cons]; exact le_max_left _ _
        have hxne : x.2 ≠ V := by
          intro hEq
          exact hp (le_antisymm hple (hEq ▸ hx))
        rw [List.find?_cons_of_neg _ (by simp [hp]),
          List.find?_cons_of_neg _ (by simp [hxne])]
        have hstep := ih p V hV2
        rw [List.find?_cons_of_neg _ (by simp [hp])] at hstep
        exact hstep

theorem detectDomain_eq_spec (scores : List (String × Nat)) :
    detectDomain scores = specFirstMaxDomain scores := by
  match scores with
  | [] => rfl
  | p :: rest =>
    simp only [detectDomain, specFirstMaxDomain]
    by_cases h : maxValues (p :: rest) = 0
    · rw [if_neg (by omega), if_pos h]
    · rw [if_pos (Nat.pos_of_ne_zero h), if_neg h, find?_first_max rest p _ rfl]
      rfl

/-- Claim C5: `analyze` assigns as domain the first entry of the fixed
ordered table (CSE, ECE, EEE, Mechanical, Civil, programming,
mathematics, science) achieving the maximum keyword substring-hit
count, and "general" when every domain scores 0; ties always break
toward the earlier table entry.  The right-hand side is the spec-worded
first-with-maximum selection over the table in its fixed order. -/
theorem claim5_first_max_domain :
    ∀ text : List Char,
      (analyze text).domain = specFirstMaxDomain (domain_scores (pyLower text)) := by
  intro text
  by_cases h : text = []
  · subst h
    have hg : specFirstMaxDomain (domain_scores (pyLower [])) = "general" := by decide
    rw [hg]
    rfl
  · simp only [analyze, if_neg h]
    exact detectDomain_eq_spec _

/-- Claim C3 (as stated) is false: the endpoint strips its inputs
before the emptiness checks, so the non-empty reference " " with an
empty candidate takes the empty-REFERENCE bypass and returns
{similarity 0, score 0, confidence 0, needs_review true} instead of the
claimed {0, 0, 1.0, false}. -/
theorem claim3_counterexample :
    chars " " ≠ [] ∧ chars "" = [] ∧
    evaluateEndpoint (chars " ") (chars "") = some ⟨0, 0, 0, true⟩ ∧
    some (EvalResponse.mk 0 0 0 true) ≠ some ⟨0, 0, 1, false⟩ := by
  refine ⟨by decide, rfl, by with_unfolding_all decide, by with_unfolding_all decide⟩

/-- Claim C3 amended: emptiness is decided after stripping whitespace.
A reference that strips to empty (any candidate) yields
{0, 0, 0, true} without running any pipeline stage; a reference that
does not strip to empty with a candidate that strips to empty yields
{0, 0, 1.0, false} immediately. -/
theorem claim3_amended_bypass :
    ∀ m s : List Char,
      (stripL m = [] → evaluateEndpoint m s = some ⟨0, 0, 0, true⟩) ∧
      (stripL m ≠ [] → stripL s = [] → evaluateEndpoint m s = some ⟨0, 0, 1, false⟩) := by
  intro m s
  constructor
  · intro h
    simp only [evaluateEndpoint, if_pos h]
  · intro h1 h2
    simp only [evaluateEndpoint, if_neg h1, if_pos h2]

theorem claim3_amended_bypass_witness :
    (stripL (chars " ") = [] ∧
      evaluateEndpoint (chars " ") (chars "xyz") = some ⟨0, 0, 0, true⟩) ∧
    (stripL (chars "a") ≠ [] ∧ stripL (chars " ") = [] ∧
      evaluateEndpoint (chars "a") (chars " ") = some ⟨0, 0, 1, false⟩) :=
  ⟨⟨rfl, (claim3_amended_bypass (chars " ") (chars "xyz")).1 rfl⟩,
    ⟨by decide, rfl, (claim3_amended_bypass (chars "a") (chars " ")).2 (by decide) rfl⟩⟩

theorem pySplitAux_eq_nil {t : List Char} :
    ∀ {acc : List Char}, pySplitAux t acc = [] →
      acc = [] ∧ ∀ c ∈ t, pyIsSpace c = true := by
  induction t with
  | nil =>
    intro acc h
    simp only [pySplitAux] at h
    split_ifs at h with ha
    · exact ⟨ha, by simp⟩
  | cons c rest ih =>
    intro acc h
    simp only [pySplitAux] at h
    by_cases hc : pyIsSpace c
    · rw [if_pos hc] at h
      split_ifs at h with ha
      · obtain ⟨-, hall⟩ := ih h
        refine ⟨ha, ?_⟩
        intro d hd
        rcases List.mem_cons.mp hd with rfl | hd
        · exact hc
        · exact hall d hd
    · rw [if_neg hc] at h
      exact absurd (ih h).1 (by simp)

theorem pySplit_ne_nil {t : List Char} (h : ∃ c ∈ t, pyIsSpace c = false) :
    pySplit t ≠ [] := by
  intro hnil
  obtain ⟨c, hc, hcs⟩ := h
  have := (pySplitAux_eq_nil hnil).2 c hc
  rw [this] at hcs
  exact Bool.noConfusion hcs

theorem pyLowerChar_space (c : Char) : pyIsSpace (pyLowerChar c) = pyIsSpace c := by
  unfold pyLowerChar
  split_ifs with hc
  · have hv : (Char.ofNat (c.toNat + 32)).toNat = c.toNat + 32 :=
      char_toNat_ofNat (by omega)
    have hL : pyIsSpace (Char.ofNat (c.toNat + 32)) = false := by
      simp only [pyIsSpace, hv, Bool.or_eq_false_iff, decide_eq_false_iff_not]
      omega
    have hR : pyIsSpace c = false := by
      simp only [pyIsSpace, Bool.or_eq_false_iff, decide_eq_false_iff_not]
      omega
    rw [hL, hR]
  · rfl

theorem exists_nonspace_lower {t : List Char} (h : ∃ c ∈ t, pyIsSpace c = false) :
    ∃ c ∈ pyLower t, pyIsSpace c = false := by
  obtain ⟨c, hc, hcs⟩ := h
  exact ⟨pyLowerChar c, List.mem_map_of_mem _ hc, by rw [pyLowerChar_space]; exact hcs⟩

theorem filter_mem_self (w : List (List Char)) :
    w.filter (fun x => x ∈ w) = w :=
  List.filter_eq_self.mpr (by intro a ha; simpa using ha)

theorem filter_not_mem_self (w : List (List Char)) :
    w.filter (fun x => x ∉ w) = [] :=
  List.filter_eq_nil_iff.mpr (by intro a ha; simp [ha])

theorem semantic_self {t : List Char} (h : ∃ c ∈ t, pyIsSpace c = false) :
    calculate_semantic_similarity t t = 1 := by
  simp only [calculate_semantic_similarity]
  have hne : (pySplit (pyLower t)).dedup ≠ [] := by
    rw [ne_eq, List.dedup_eq_nil]
    exact pySplit_ne_nil (exists_nonspace_lower h)
  rw [if_neg (by simp [hne])]
  rw [filter_mem_self, filter_not_mem_self]
  rw [if_pos (by simpa using List.length_pos.mpr hne)]
  have hlen : ((pySplit (pyLower t)).dedup.length : ℚ) ≠ 0 := by
    exact_mod_cast (List.length_pos.mpr hne).ne'
  simp only [List.length_nil, Nat.add_zero]
  exact div_self hlen

theorem keyword_self {t : List Char} (h : ∃ c ∈ t, pyIsSpace c = false) :
    calculate_keyword_similarity t t = 1 := by
  simp only [calculate_keyword_similarity]
  have hne : pySplit (pyLower t) ≠ [] := pySplit_ne_nil (exists_nonspace_lower h)
  rw [if_neg (by simp [hne])]
  rw [filter_mem_self, max_self]
  exact div_self (by exact_mod_cast (List.length_pos.mpr hne).ne')

theorem length_self {t : List Char} (h : ∃ c ∈ t, pyIsSpace c = false) :
    calculate_length_similarity t t = 1 := by
  simp only [calculate_length_similarity]
  have hne : (pySplit t).length ≠ 0 := by
    simpa [List.length_eq_zero] using pySplit_ne_nil h
  rw [if_neg (by simp [hne]), if_neg (by simp [hne]), min_self, max_self]
  exact div_self (by exact_mod_cast hne)

theorem structure_self (t : List Char) : calculate_structure_similarity t t = 1 := by
  simp only [calculate_structure_similarity]
  by_cases h : sentenceCount t = 0
  · rw [if_pos ⟨h, h⟩]
  · rw [if_neg (by simp [h]), if_neg (by simp [h]), min_self, max_self]
    exact div_self (by exact_mod_cast h)

theorem ensemble_evaluate_self {t : List Char} (h : ∃ c ∈ t, pyIsSpace c = false) :
    ensemble_evaluate t t = ⟨1, 1, 1, 1, 1, 1, 0⟩ := by
  have ht : t ≠ [] := by
    rintro rfl
    obtain ⟨c, hc, -⟩ := h
    cases hc
  simp only [ensemble_evaluate]
  rw [if_neg (by simp [ht])]
  rw [semantic_self h, keyword_self h, length_self h, structure_self]
  with_unfolding_all decide

theorem coverage_self (l : List String) : calculate_concept_coverage l l = 1 := by
  simp only [calculate_concept_coverage]
  by_cases h : l = []
  · rw [if_pos h]
  · rw [if_neg h]
    have hd : l.dedup ≠ [] := by rwa [ne_eq, List.dedup_eq_nil]
    rw [if_neg hd]
    rw [List.filter_eq_self.mpr (by intro a ha; simpa using ha)]
    exact div_self (by exact_mod_cast (List.length_pos.mpr hd).ne')

theorem pyInt_natCast (n : ℕ) : pyInt ((n : ℚ)) = (n : ℤ) := by
  unfold pyInt
  rw [if_pos (by positivity)]
  exact_mod_cast Int.floor_natCast n

theorem cfs_one (k : ℤ) : calculate_final_score 1 1 k k = some ⟨1, 6, 0.9⟩ := by
  have hmin : min ((1:ℚ) + 1 * 0.15) 1 = 1 := min_eq_right (by norm_num)
  have hcf : calculate_confidence 1 1 k k = 0.9 := by
    simp only [calculate_confidence]
    rw [if_pos (by norm_num : (1:ℚ) > 0.8), if_neg (by norm_num : ¬ ((1:ℚ) < 0.3)),
      if_neg (by omega : ¬ (k = 0 ∧ k > 0))]
    with_unfolding_all decide
  simp only [calculate_final_score, hmin]
  rw [if_neg (by norm_num), if_neg (by norm_num), hcf]
  with_unfolding_all decide

/-- Claim C4 (as stated) is false for a whitespace-only text: a single
space is a non-empty text, but evaluating it against itself yields
semantic and keyword signals 0, weighted score 0.2 and ensemble
confidence 0.75, not all ones. -/
theorem claim4_counterexample :
    chars " " ≠ [] ∧
    ensemble_evaluate (chars " ") (chars " ") = ⟨0.2, 0.75, 0, 0, 1, 1, 0.25⟩ ∧
    (0.2 : ℚ) ≠ 1 ∧ (0.75 : ℚ) ≠ 1 := by
  refine ⟨by decide, by with_unfolding_all decide, by norm_num, by norm_num⟩

/-- Claim C4 amended: for every text containing at least one
non-whitespace character, evaluating it against itself makes all four
ensemble signals 1.0, the weighted score 1.0, the variance 0 and the
ensemble confidence 1.0; and whenever its normalized form still has a
non-whitespace character, the full evaluation returns similarity 1,
final score 6.00, confidence 0.9 and needs_review false.  In
particular both hold for "the quick brown fox jumps". -/
theorem claim4_amended_identical :
    ∀ t : List Char,
      ((∃ c ∈ t, pyIsSpace c = false) → ensemble_evaluate t t = ⟨1, 1, 1, 1, 1, 1, 0⟩) ∧
      ((∃ c ∈ (preprocess t).normalized_text, pyIsSpace c = false) →
        enhanced_evaluate t t = some ⟨1, 6, 0.9, false⟩) := by
  intro t
  refine ⟨ensemble_evaluate_self, ?_⟩
  intro h
  have hstats : pipelineStats t t =
      (1, 1, (((analyze (preprocess t).normalized_text).concepts.length : ℕ) : ℤ),
        (((analyze (preprocess t).normalized_text).concepts.length : ℕ) : ℤ)) := by
    simp only [pipelineStats]
    rw [coverage_self, ensemble_evaluate_self h, one_mul, pyInt_natCast]
  simp only [enhanced_evaluate, hstats]
  rw [cfs_one]
  with_unfolding_all decide

theorem claim4_amended_identical_witness :
    ensemble_evaluate (chars "the quick brown fox jumps")
        (chars "the quick brown fox jumps") = ⟨1, 1, 1, 1, 1, 1, 0⟩ ∧
    enhanced_evaluate (chars "the quick brown fox jumps")
        (chars "the quick brown fox jumps") = some ⟨1, 6, 0.9, false⟩ := by
  have h := claim4_amended_identical (chars "the quick brown fox jumps")
  exact ⟨h.1 (by decide), h.2 (by decide)⟩

/-! ### Lemmas for the normalization fixpoint (claim C7) -/

theorem pyLowerChar_notUpper (c : Char) : NotUpperChar (pyLowerChar c) := by
  unfold pyLowerChar NotUpperChar
  split_ifs with hc
  · rw [char_toNat_ofNat (by omega)]
    omega
  · exact hc

theorem pyLowerChar_eq_self {c : Char} (h : NotUpperChar c) : pyLowerChar c = c :=
  if_neg h

theorem pyLower_eq_self {l : List Char} (h : ∀ c ∈ l, NotUpperChar c) : pyLower l = l := by
  unfold pyLower
  rw [List.map_congr_left (fun c hc => pyLowerChar_eq_self (h c hc))]
  exact List.map_id' l

theorem space_notUpper {c : Char} (h : pyIsSpace c = true) : NotUpperChar c := by
  simp only [pyIsSpace, Bool.or_eq_true, decide_eq_true_eq] at h
  unfold NotUpperChar
  omega

theorem kept_of_space {c : Char} (h : pyIsSpace c = true) : keptChar c = true := by
  simp [keptChar, h]

theorem mem_collapseWsAux {a : Char} :
    ∀ (l : List Char) (b : Bool), a ∈ collapseWsAux l b → a ∈ l ∨ a = ' ' := by
  intro l
  induction l with
  | nil => intro b h; cases h
  | cons c rest ih =>
    intro b h
    simp only [collapseWsAux] at h
    by_cases hc : pyIsSpace c
    · rw [if_pos hc] at h
      rcases b with _ | _
      · simp only [Bool.false_eq_true, if_false] at h
        rcases List.mem_cons.mp h with rfl | h
        · exact Or.inr rfl
        · rcases ih true h with h | h
          · exact Or.inl (List.mem_cons_of_mem c h)
          · exact Or.inr h
      · simp only [if_true] at h
        rcases ih true h with h | h
        · exact Or.inl (List.mem_cons_of_mem c h)
        · exact Or.inr h
    · rw [if_neg hc] at h
      rcases List.mem_cons.mp h with rfl | h
      · exact Or.inl (List.mem_cons_self a rest)
      · rcases ih false h with h | h
        · exact Or.inl (List.mem_cons_of_mem c h)
        · exact Or.inr h

theorem mem_collapseWs {a : Char} {l : List Char} (h : a ∈ collapseWs l) :
    a ∈ l ∨ a = ' ' :=
  mem_collapseWsAux l false h

theorem stripL_subset (l : List Char) : stripL l ⊆ l := by
  intro a ha
  simp only [stripL, List.mem_reverse] at ha
  have h1 := (List.dropWhile_suffix pyIsSpace).sublist.subset ha
  rw [List.mem_reverse] at h1
  exact (List.dropWhile_suffix pyIsSpace).sublist.subset h1

theorem head_dropWhile (p : Char → Bool) (l : List Char) :
    ∀ x, (l.dropWhile p).head? = some x → p x = false := by
  induction l with
  | nil => intro x h; cases h
  | cons c rest ih =>
    intro x h
    rw [List.dropWhile_cons] at h
    split_ifs at h with hc
    · exact ih x h
    · rw [List.head?_cons, Option.some.injEq] at h
      subst h
      exact Bool.eq_false_iff.mpr hc

theorem dropWhile_eq_self (p : Char → Bool) (l : List Char)
    (h : ∀ x, l.head? = some x → p x = false) : l.dropWhile p = l := by
  cases l with
  | nil => rfl
  | cons c rest =>
    rw [List.dropWhile_cons, if_neg]
    rw [h c rfl]
    simp

theorem dropWhile_dropWhile (p : Char → Bool) (l : List Char) :
    (l.dropWhile p).dropWhile p = l.dropWhile p :=
  dropWhile_eq_self p _ (head_dropWhile p l)

theorem getLast?_of_suffix {s l : List Char} (h : s <:+ l) (hs : s ≠ []) :
    s.getLast? = l.getLast? := by
  obtain ⟨u, rfl⟩ := h
  exact (List.getLast?_append_of_ne_nil u hs).symm

theorem stripL_idem (l : List Char) : stripL (stripL l) = stripL l := by
  by_cases hd : (l.dropWhile pyIsSpace).reverse.dropWhile pyIsSpace = []
  · have hz : stripL l = [] := by rw [stripL, hd]; rfl
    rw [hz]
    rfl
  · -- the head of `stripL l` fails `pyIsSpace`, so the leading
    -- `dropWhile` of the second strip is the identity
    have hstep1 : (stripL l).dropWhile pyIsSpace = stripL l := by
      apply dropWhile_eq_self
      intro x hx
      rw [stripL, List.head?_reverse] at hx
      have hlast : ((l.dropWhile pyIsSpace).reverse.dropWhile pyIsSpace).getLast? =
          (l.dropWhile pyIsSpace).reverse.getLast? :=
        getLast?_of_suffix (List.dropWhile_suffix pyIsSpace) hd
      rw [hlast, List.getLast?_reverse] at hx
      exact head_dropWhile pyIsSpace l x hx
    rw [stripL, hstep1]
    rw [show (stripL l).reverse = (l.dropWhile pyIsSpace).reverse.dropWhile pyIsSpace by
      rw [stripL, List.reverse_reverse]]
    rw [dropWhile_dropWhile, ← stripL]

theorem collapseWsAux_head :
    ∀ (l : List Char) (d : Char),
      (collapseWsAux l true).head? = some d → pyIsSpace d = false := by
  intro l
  induction l with
  | nil => intro d h; cases h
  | cons c rest ih =>
    intro d h
    simp only [collapseWsAux] at h
    by_cases hc : pyIsSpace c
    · rw [if_pos hc] at h
      simp only [if_true] at h
      exact ih d h
    · rw [if_neg hc, List.head?_cons, Option.some.injEq] at h
      subst h
      exact Bool.eq_false_iff.mpr hc

theorem collapseWsAux_spacedOk :
    ∀ (l : List Char) (b : Bool), SpacedOk (collapseWsAux l b) := by
  intro l
  induction l with
  | nil =>
    intro b
    exact ⟨fun c hc => (List.not_mem_nil c hc).elim, List.chain'_nil⟩
  | cons c rest ih =>
    intro b
    simp only [collapseWsAux]
    by_cases hc : pyIsSpace c
    · rw [if_pos hc]
      rcases b with _ | _
      · simp only [Bool.false_eq_true, if_false]
        refine ⟨?_, ?_⟩
        · intro a ha hs
          rcases List.mem_cons.mp ha with rfl | ha
          · rfl
          · exact (ih true).1 a ha hs
        · refine List.chain'_cons'.mpr ⟨?_, (ih true).2⟩
          intro y hy
          rintro ⟨-, hy2⟩
          rw [collapseWsAux_head rest y (Option.mem_def.mp hy)] at hy2
          exact Bool.noConfusion hy2
      · simp only [if_true]
        exact ih true
    · rw [if_neg hc]
      refine ⟨?_, ?_⟩
      · intro a ha hs
        rcases List.mem_cons.mp ha with rfl | ha
        · exact absurd hs (by simp [hc])
        · exact (ih false).1 a ha hs
      · refine List.chain'_cons'.mpr ⟨?_, (ih false).2⟩
        intro y hy
        rintro ⟨h1, -⟩
        exact hc h1

theorem spacedOk_within {l m : List Char} (hok : SpacedOk l) (h : m <:+: l) : SpacedOk m :=
  ⟨fun a ha hs => hok.1 a (h.subset ha) hs, List.Chain'.infix hok.2 h⟩

theorem spacedOk_collapse :
    ∀ l : List Char, SpacedOk l →
      collapseWsAux l false = l ∧
        ((∀ d, l.head? = some d → pyIsSpace d = false) → collapseWsAux l true = l) := by
  intro l
  induction l with
  | nil => intro _; exact ⟨rfl, fun _ => rfl⟩
  | cons c rest ih =>
    intro hok
    have hokr : SpacedOk rest :=
      ⟨fun a ha h => hok.1 a (List.mem_cons_of_mem _ ha) h, hok.2.tail⟩
    have hmain : collapseWsAux (c :: rest) false = c :: rest := by
      by_cases hc : pyIsSpace c
      · have hce : c = ' ' := hok.1 c (List.mem_cons_self _ _) hc
        have hhead : ∀ d, rest.head? = some d → pyIsSpace d = false := by
          intro d hd
          have h2 := (List.chain'_cons'.mp hok.2).1 d (Option.mem_def.mpr hd)
          by_contra hcon
          rw [Bool.not_eq_false] at hcon
          exact h2 ⟨hc, hcon⟩
        simp only [collapseWsAux, if_pos hc, Bool.false_eq_true, if_false]
        rw [(ih hokr).2 hhead, hce]
      · simp only [collapseWsAux, if_neg hc]
        rw [(ih hokr).1]
    refine ⟨hmain, ?_⟩
    intro hhead
    by_cases hc : pyIsSpace c
    · exact absurd (hhead c rfl) (by simp [hc])
    · simp only [collapseWsAux, if_neg hc]
      rw [(ih hokr).1]

theorem collapseWs_of_spacedOk {l : List Char} (h : SpacedOk l) : collapseWs l = l :=
  (spacedOk_collapse l h).1

theorem stripL_within (l : List Char) : stripL l <:+: l := by
  obtain ⟨u, hu⟩ :
      (l.dropWhile pyIsSpace).reverse.dropWhile pyIsSpace <:+
        (l.dropWhile pyIsSpace).reverse := List.dropWhile_suffix _
  have h3 : stripL l <+: l.dropWhile pyIsSpace := by
    refine ⟨u.reverse, ?_⟩
    rw [stripL, ← List.reverse_append, hu, List.reverse_reverse]
  exact h3.isInfix.trans (List.dropWhile_suffix pyIsSpace).isInfix

theorem preprocess_nonempty (t : List Char) (h : t ≠ []) :
    preprocess t = ⟨stripL ((collapseWs (pyLower t)).filter keptChar),
      (if pyLower t ≠ t then ["Converted to lowercase"] else []) ++
        (if collapseWs (pyLower t) ≠ pyLower t then ["Normalized whitespace"] else []) ++
        (if (collapseWs (pyLower t)).filter keptChar ≠ collapseWs (pyLower t)
          then ["Removed special punctuation"] else []),
      []⟩ := by
  simp only [preprocess, if_neg h]

theorem preprocess_facts (t : List Char) :
    (∀ a ∈ (preprocess t).normalized_text, NotUpperChar a) ∧
    (∀ a ∈ (preprocess t).normalized_text, keptChar a = true) ∧
    stripL (preprocess t).normalized_text = (preprocess t).normalized_text := by
  by_cases h : t = []
  · subst h
    exact ⟨fun a ha => (List.not_mem_nil a ha).elim,
      fun a ha => (List.not_mem_nil a ha).elim, rfl⟩
  · rw [preprocess_nonempty t h]
    refine ⟨?_, ?_, ?_⟩
    · intro a ha
      have h1 := stripL_subset _ ha
      have h2 := List.mem_filter.mp h1
      rcases mem_collapseWs h2.1 with h3 | h3
      · obtain ⟨b, -, rfl⟩ := List.mem_map.mp h3
        exact pyLowerChar_notUpper b
      · subst h3
        exact space_notUpper rfl
    · intro a ha
      exact (List.mem_filter.mp (stripL_subset _ ha)).2
    · exact stripL_idem _

theorem preprocess_second (t : List Char) :
    preprocess ((preprocess t).normalized_text) =
      ⟨stripL (collapseWs ((preprocess t).normalized_text)),
        (if collapseWs ((preprocess t).normalized_text) ≠ (preprocess t).normalized_text
          then ["Normalized whitespace"] else []), []⟩ := by
  obtain ⟨hNU, hK, -⟩ := preprocess_facts t
  by_cases h : (preprocess t).normalized_text = []
  · rw [h]
    rfl
  · rw [preprocess_nonempty _ h]
    have hlow : pyLower ((preprocess t).normalized_text) = (preprocess t).normalized_text :=
      pyLower_eq_self hNU
    rw [hlow]
    have hfil : (collapseWs ((preprocess t).normalized_text)).filter keptChar =
        collapseWs ((preprocess t).normalized_text) := by
      apply List.filter_eq_self.mpr
      intro a ha
      rcases mem_collapseWs ha with h3 | h3
      · exact hK a h3
      · subst h3
        exact kept_of_space rfl
    rw [hfil]
    simp

theorem preprocess_third (t : List Char) :
    preprocess ((preprocess ((preprocess t).normalized_text)).normalized_text) =
      ⟨(preprocess ((preprocess t).normalized_text)).normalized_text, [], []⟩ := by
  obtain ⟨hNU, hK, -⟩ := preprocess_facts t
  rw [preprocess_second t]
  by_cases h : stripL (collapseWs ((preprocess t).normalized_text)) = []
  · simp only [h]
    rfl
  · simp only []
    rw [preprocess_nonempty _ h]
    have hsub : ∀ a ∈ stripL (collapseWs ((preprocess t).normalized_text)),
        a ∈ collapseWs ((preprocess t).normalized_text) :=
      fun a ha => stripL_subset _ ha
    have hNU2 : ∀ a ∈ stripL (collapseWs ((preprocess t).normalized_text)), NotUpperChar a := by
      intro a ha
      rcases mem_collapseWs (hsub a ha) with h3 | h3
      · exact hNU a h3
      · subst h3
        exact space_notUpper rfl
    have hK2 : ∀ a ∈ stripL (collapseWs ((preprocess t).normalized_text)),
        keptChar a = true := by
      intro a ha
      rcases mem_collapseWs (hsub a ha) with h3 | h3
      · exact hK a h3
      · subst h3
        exact kept_of_space rfl
    have hlow : pyLower (stripL (collapseWs ((preprocess t).normalized_text))) =
        stripL (collapseWs ((preprocess t).normalized_text)) := pyLower_eq_self hNU2
    have hok : SpacedOk (stripL (collapseWs ((preprocess t).normalized_text))) :=
      spacedOk_within (collapseWsAux_spacedOk ((preprocess t).normalized_text) false)
        (stripL_within _)
    have hcol : collapseWs (stripL (collapseWs ((preprocess t).normalized_text))) =
        stripL (collapseWs ((preprocess t).normalized_text)) := collapseWs_of_spacedOk hok
    have hfil : (stripL (collapseWs ((preprocess t).normalized_text))).filter keptChar =
        stripL (collapseWs ((preprocess t).normalized_text)) :=
      List.filter_eq_self.mpr (fun a ha => hK2 a ha)
    rw [hlow, hcol, hfil, stripL_idem]
    simp

/-- Claim C7 (as stated) is false: preprocessing "a ! b" removes the
exclamation mark and leaves the double space "a  b", so a second pass
collapses that run and reports a whitespace-normalization correction -
normalization is not idempotent after one pass. -/
theorem claim7_counterexample :
    (preprocess ((preprocess (chars "a ! b")).normalized_text)).normalized_text ≠
      (preprocess (chars "a ! b")).normalized_text ∧
    (preprocess ((preprocess (chars "a ! b")).normalized_text)).corrections ≠ [] := by
  exact ⟨by decide, by decide⟩

/-- Claim C7 amended: one pass is not idempotent, but normalization
stabilizes after two passes.  The second pass can only differ from the
first pass's output by collapsing whitespace runs created by
punctuation removal (its corrections list is empty or exactly the
whitespace-normalization entry), and a third pass returns the second
pass's output unchanged with an empty corrections list. -/
theorem claim7_amended_stabilizes :
    ∀ t : List Char,
      ((preprocess ((preprocess t).normalized_text)).corrections = [] ∨
        (preprocess ((preprocess t).normalized_text)).corrections =
          ["Normalized whitespace"]) ∧
      preprocess ((preprocess ((preprocess t).normalized_text)).normalized_text) =
        ⟨(preprocess ((preprocess t).normalized_text)).normalized_text, [], []⟩ := by
  intro t
  refine ⟨?_, preprocess_third t⟩
  rw [preprocess_second t]
  by_cases h : collapseWs ((preprocess t).normalized_text) = (preprocess t).normalized_text
  · left
    simp [h]
  · right
    simp [h]
